import Mathlib

/-!
Shallow embedding of src/mTRL.py (multiline TRL calibration) and proofs about
its per-frequency linear-algebra transforms.

Modelling conventions:
* numpy complex scalars become Lean `ℂ` (exact arithmetic); note that in Lean
  division by zero yields the junk value 0, where numpy would produce nan/inf —
  every theorem below that depends on a division carries the nonvanishing
  hypothesis that makes the two semantics agree.
* per-frequency numpy arrays become Lean `List`s, indexed 1:1 against the
  frequency sweep; Python zip over several arrays becomes zipWith, which has
  the same truncate-to-shortest behaviour.
* 2x2 / 4x4 numpy matrices become `Matrix (Fin 2) (Fin 2) ℂ` and
  `Matrix (Fin 4) (Fin 4) ℂ`.
* the external solvers MultiCal.mTRL / TUGmTRL.mTRL and the skrf utility s2t
  are external collaborators (they are not part of this repository's source);
  they are taken as function parameters.
* print statements are side effects with no data flow and are dropped.
-/

noncomputable section

/-- A per-frequency 2x2 scattering (or cascading) matrix. -/
abbrev M2 := Matrix (Fin 2) (Fin 2) ℂ

/-- A per-frequency 4x4 error-box matrix. -/
abbrev M4 := Matrix (Fin 4) (Fin 4) ℂ

/-- Three-list analogue of zipWith, mirroring Python zip over three arrays
(truncates to the shortest input). -/
def zipWith3 (f : α → β → γ → δ) : List α → List β → List γ → List δ
  | a :: as, b :: bs, c :: cs => f a b c :: zipWith3 f as bs cs
  | _, _, _ => []

/-- Per-frequency body of correct_sw (src/mTRL.py lines 19-24): switch-term
correction of one raw 2x2 scattering matrix S with forward term g21 and
reverse term g12. -/
def correct_sw_point (S : M2) (g21 g12 : ℂ) : M2 :=
  !![(S 0 0 - S 0 1 * S 1 0 * g21) / (1 - S 0 1 * S 1 0 * g21 * g12),
     (S 0 1 - S 0 0 * S 0 1 * g12) / (1 - S 0 1 * S 1 0 * g21 * g12);
     (S 1 0 - S 1 1 * S 1 0 * g21) / (1 - S 0 1 * S 1 0 * g21 * g12),
     (S 1 1 - S 0 1 * S 1 0 * g12) / (1 - S 0 1 * S 1 0 * g21 * g12)]

/-- correct_sw (src/mTRL.py lines 9-26): per-frequency switch-term correction
of a measured two-port network, zipping the network's scattering matrices with
the squeezed forward/reverse switch-term arrays G21 and G12. -/
def correct_sw (Ss : List M2) (G21 G12 : List ℂ) : List M2 :=
  zipWith3 correct_sw_point Ss G21 G12

/-- The stored fields of an mTRL calibration session after construction
(src/mTRL.py lines 47-95).  The switch_term field holds the squeezed
forward/reverse switch-term arrays when configured. -/
structure MTRLSession where
  lines : List (List M2)
  line_lengths : List ℝ
  reflect : List (List M2)
  reflect_est : List ℂ
  reflect_offset : List ℝ
  ereff_est : ℂ
  switch_term : Option (List ℂ × List ℂ)

/-- mTRL.__init__ (src/mTRL.py lines 47-95): stores the inputs and, when
switch terms are configured, replaces lines and reflect by their switch-term
corrected versions.  The Python defaults are reflect_est=[-1],
reflect_offset=[0], ereff_est=1+0j, switch_term=None.  The result is wrapped
in Except so that a raised Python exception would be modelled as .error;
the constructor performs no validation and never raises, so every branch
returns .ok. -/
def mTRL_init (lines : List (List M2)) (line_lengths : List ℝ)
    (reflect : List (List M2)) (reflect_est : List ℂ) (reflect_offset : List ℝ)
    (ereff_est : ℂ) (switch_term : Option (List ℂ × List ℂ)) :
    Except String MTRLSession :=
  match switch_term with
  | none =>
      .ok ⟨lines, line_lengths, reflect, reflect_est, reflect_offset,
           ereff_est, none⟩
  | some (gf, gr) =>
      .ok ⟨lines.map (fun NT => correct_sw NT gf gr), line_lengths,
           reflect.map (fun NT => correct_sw NT gf gr), reflect_est,
           reflect_offset, ereff_est, some (gf, gr)⟩

/-- Boolean observer of the Except wrapper: true when the modelled Python
call returns normally rather than raising. -/
def returnsOk : Except String α → Bool
  | .ok _ => true
  | .error _ => false

/-- np.linalg.pinv as used by apply_cal (src/mTRL.py line 197).  It is
modelled by the matrix inverse, with which the Moore-Penrose pseudo-inverse
coincides whenever the argument is invertible; every theorem below applies it
only to the invertible identity matrix. -/
def pinv (A : M4) : M4 := A⁻¹

/-- Per-frequency body of apply_cal (src/mTRL.py lines 196-202): de-embed one
2x2 scattering matrix s with error box x and scale k. -/
def apply_cal_point (x : M4) (k : ℂ) (s : M2) : M2 :=
  let xinv := pinv x
  let M := ![-(s 0 0) * s 1 1 + s 0 1 * s 1 0, -(s 1 1), s 0 0, 1]
  let T := xinv.mulVec M
  let s21_cal := k * s 1 0 / T 3
  let T2 := fun i => T i / T 3
  !![T2 2, (T2 0 - T2 2 * T2 1) / s21_cal; s21_cal, -(T2 1)]

/-- mTRL.apply_cal (src/mTRL.py lines 180-214) for a measured network of an
arbitrary port count.  The per-frequency raw matrices are given as functions
of two natural indices (a numpy array indexes dynamically); nports is the
port count sqrt(len(NW.port_tuples)).  A 1-port input is first mirrored into
a symmetric 2-port by rf.two_port_reflect and the requested port (left flag)
is read back at the end; any input with two or more ports flows through the
2-port path, which only ever reads entries (0,0), (0,1), (1,0), (1,1).
Switch-term correction is applied after mirroring when configured.  The
result is wrapped in Except to model raised exceptions; no branch of the
source raises, so every branch returns .ok. -/
def apply_cal_general (X : List M4) (K : List ℂ)
    (switch_term : Option (List ℂ × List ℂ)) (nports : ℕ)
    (s : List (ℕ → ℕ → ℂ)) (left : Bool) :
    Except String (List ℂ ⊕ List M2) :=
  let s2 : List M2 :=
    if nports < 2 then s.map (fun f => !![f 0 0, 0; 0, f 0 0])
    else s.map (fun f => !![f 0 0, f 0 1; f 1 0, f 1 1])
  let s3 : List M2 :=
    match switch_term with
    | none => s2
    | some (gf, gr) => correct_sw s2 gf gr
  let S_cal : List M2 := zipWith3 apply_cal_point X K s3
  if nports < 2 then
    .ok (.inl (S_cal.map (fun m => if left then m 0 0 else m 1 1)))
  else
    .ok (.inr S_cal)

/-- The six named error-coefficient sequences written by mTRL.error_coef. -/
structure ErrorCoefs where
  ERF : List ℂ
  EDF : List ℂ
  ESF : List ℂ
  ERR : List ℂ
  EDR : List ℂ
  ESR : List ℂ

/-- mTRL.error_coef (src/mTRL.py lines 216-229): the six error terms as pure
elementwise functions of the error-box array X. -/
def error_coef (X : List M4) : ErrorCoefs where
  ERF := X.map fun x => x 2 2 - x 2 3 * x 3 2
  EDF := X.map fun x => x 2 3
  ESF := X.map fun x => -(x 3 2)
  ERR := X.map fun x => x 1 1 - x 3 1 * x 1 3
  EDR := X.map fun x => -(x 1 3)
  ESR := X.map fun x => x 3 1

/-- The per-session mutable calibration state: the per-frequency error-box
array X, scale array K, propagation-constant array gamma (all set by a
calibration run), and the coefficient mapping written by error_coef. -/
structure MTRLState where
  X : List M4
  K : List ℂ
  gamma : List ℂ
  coefs : ErrorCoefs

/-- The scaled matrix KX_new of shift_plane (src/mTRL.py lines 242-243):
with z = exp(-gamma*d) inlined, KX_new = k * x @ diag(z^2, 1, 1, 1/z^2). -/
def shiftKX (x : M4) (k g : ℂ) (d : ℝ) : M4 :=
  k • (x * Matrix.diagonal ![Complex.exp (-(g * (d : ℂ))) ^ 2, 1, 1,
    1 / Complex.exp (-(g * (d : ℂ))) ^ 2])

/-- The renormalization step shared by shift_plane and renorm_impedance
(src/mTRL.py lines 244-245 and 267-268): divide KX_new elementwise by its
trailing entry KX_new[-1,-1] and keep that entry as the new K. -/
def normKX (KX : M4) : M4 × ℂ := ((KX 3 3)⁻¹ • KX, KX 3 3)

/-- One frequency point of mTRL.shift_plane (src/mTRL.py lines 241-245). -/
def shift_plane_point (x : M4) (k g : ℂ) (d : ℝ) : M4 × ℂ :=
  normKX (shiftKX x k g d)

/-- mTRL.shift_plane (src/mTRL.py lines 232-248): shift the calibration
plane by distance d, updating self.X and self.K and leaving the other
session state untouched. -/
def shift_plane (st : MTRLState) (d : ℝ) : MTRLState :=
  let pts := zipWith3 (fun x k g => shift_plane_point x k g d) st.X st.K st.gamma
  { st with X := pts.map Prod.fst, K := pts.map Prod.snd }

/-- The 4x4 matrix np.kron([[1,-g],[-g,1]], [[1,g],[g,1]]) of
renorm_impedance (src/mTRL.py line 266), written out entrywise. -/
def kron4 (g : ℂ) : M4 :=
  !![1, g, -g, -(g * g);
     g, 1, -(g * g), -g;
     -g, -(g * g), 1, g;
     -(g * g), -g, g, 1]

/-- The per-frequency reflection-coefficient array
G = (Z_new - Z0)/(Z_new + Z0) of renorm_impedance (src/mTRL.py line 262).
Z_new and Z0 are taken after the np.ones broadcast of lines 258-260, i.e. as
arrays of the sweep length (a scalar input is replicated). -/
def renorm_Gamma (Z_new Z0 : List ℂ) : List ℂ :=
  List.zipWith (fun zn z0 => (zn - z0) / (zn + z0)) Z_new Z0

/-- The scaled matrix KX_new of renorm_impedance (src/mTRL.py line 266):
KX_new = k * x @ kron([[1,-g],[-g,1]],[[1,g],[g,1]]) / (1 - g^2). -/
def renormKX (x : M4) (k g : ℂ) : M4 :=
  (1 - g ^ 2)⁻¹ • (k • (x * kron4 g))

/-- One frequency point of mTRL.renorm_impedance
(src/mTRL.py lines 265-268). -/
def renorm_point (x : M4) (k g : ℂ) : M4 × ℂ :=
  normKX (renormKX x k g)

/-- mTRL.renorm_impedance (src/mTRL.py lines 250-271): renormalize the
reference impedance from Z0 to Z_new (both given post-broadcast as arrays of
the sweep length), updating self.X and self.K and leaving the other session
state untouched. -/
def renorm_impedance (st : MTRLState) (Z_new Z0 : List ℂ) : MTRLState :=
  let G := renorm_Gamma Z_new Z0
  let pts := zipWith3 renorm_point st.X st.K G
  { st with X := pts.map Prod.fst, K := pts.map Prod.snd }

/-- The warm-start extrapolation of run_multical (src/mTRL.py line 127):
gamma.real + 1j*gamma.imag*f_next/f_current. -/
def extrap_gamma (gamma : ℂ) (fnext fcur : ℝ) : ℂ :=
  (gamma.re : ℂ) + Complex.I * (gamma.im : ℂ) * (fnext : ℂ) / (fcur : ℂ)

/-- The per-frequency loop of mTRL.run_multical (src/mTRL.py lines 120-131),
folded over the remaining frequency list.  solveAt inx g stands for the
external classical solver call
MultiCal.mTRL(meas_lines_T, line_lengths, meas_reflect_S, g, reflect_est,
reflect_offset) on the index-inx slices, returning (X, K, gamma).  After each
call the guess is extrapolated to the next frequency unless the current one
is the last (if inx+1 < len(f)). -/
def multical_fold (solveAt : ℕ → ℂ → M4 × ℂ × ℂ) :
    List ℝ → ℕ → ℂ → List (M4 × ℂ × ℂ)
  | [], _, _ => []
  | ff :: rest, inx, g0 =>
      let r := solveAt inx g0
      let g1 := match rest with
        | [] => g0
        | fnext :: _ => extrap_gamma r.2.2 fnext ff
      r :: multical_fold solveAt rest (inx + 1) g1

/-- Observer of the same loop: the sequence of propagation-constant guesses
gamma_0 actually passed to the solver, one per frequency point, with the
identical warm-start update as multical_fold. -/
def multical_guesses (solveAt : ℕ → ℂ → M4 × ℂ × ℂ) :
    List ℝ → ℕ → ℂ → List ℂ
  | [], _, _ => []
  | ff :: rest, inx, g0 =>
      let r := solveAt inx g0
      let g1 := match rest with
        | [] => g0
        | fnext :: _ => extrap_gamma r.2.2 fnext ff
      g0 :: multical_guesses solveAt rest (inx + 1) g1

/-- Speed of light in vacuum, m/s (src/mTRL.py line 7). -/
def c0 : ℝ := 299792458

/-- The initial propagation-constant estimate of run_multical
(src/mTRL.py lines 116-118): gamma_0 = 2*pi*f[0]/c0*sqrt(-ereff_0), then
abs(real) + 1j*abs(imag); the complex square root is the principal branch
(numpy convention), i.e. the complex power 1/2. -/
def multical_gamma0 (ereff_est : ℂ) (f0 : ℝ) : ℂ :=
  let g := ((2 * Real.pi * f0 / c0 : ℝ) : ℂ) * (-ereff_est) ^ ((1 : ℂ) / 2)
  (|g.re| : ℝ) + Complex.I * (|g.im| : ℝ)

/-- mTRL.run_multical (src/mTRL.py lines 97-137): drive the classical sweep.
The external solver MultiCal.mTRL and the skrf conversion s2t are parameters
(external collaborators); solveAt packages the solver applied to the
index-inx slices of the converted line matrices and the reflect matrices.
The loop is multical_fold; afterwards X, K, gamma are stored and error_coef
is invoked on the X array. -/
def run_multical
    (solver : List M2 → List ℝ → List M2 → ℂ → List ℂ → List ℝ → M4 × ℂ × ℂ)
    (s2t : M2 → M2) (sess : MTRLSession) (f : List ℝ) : MTRLState :=
  let T_lines := sess.lines.map (fun x => x.map s2t)
  let S_short := sess.reflect
  let gamma0 := multical_gamma0 sess.ereff_est (f.getD 0 0)
  let solveAt : ℕ → ℂ → M4 × ℂ × ℂ := fun inx g =>
    solver (T_lines.map (fun x => x.getD inx 0)) sess.line_lengths
      (S_short.map (fun x => x.getD inx 0)) g sess.reflect_est
      sess.reflect_offset
  let res := multical_fold solveAt f 0 gamma0
  let X := res.map (fun r => r.1)
  { X := X
    K := res.map (fun r => r.2.1)
    gamma := res.map (fun r => r.2.2)
    coefs := error_coef X }

theorem correct_sw_point_zero (S : M2) : correct_sw_point S 0 0 = S := by
  have h := Matrix.eta_fin_two S
  rw [correct_sw_point]
  conv_rhs => rw [h]
  norm_num

theorem zipWith3_replicate_replicate (f : α → β → γ → δ) (a : α) (b : β) :
    ∀ cs : List γ,
      zipWith3 f (List.replicate cs.length a) (List.replicate cs.length b) cs
        = cs.map (fun c => f a b c)
  | [] => rfl
  | c :: cs => by
      simp only [List.length_cons, List.replicate_succ, zipWith3, List.map_cons]
      rw [zipWith3_replicate_replicate f a b cs]

theorem zipWith3_replicate_right (f : α → β → γ → δ) (b : β) (c : γ) :
    ∀ as : List α,
      zipWith3 f as (List.replicate as.length b) (List.replicate as.length c)
        = as.map (fun a => f a b c)
  | [] => rfl
  | a :: as => by
      simp only [List.length_cons, List.replicate_succ, zipWith3, List.map_cons]
      rw [zipWith3_replicate_right f b c as]

theorem getD_map_zero (f : M4 → ℂ) (X : List M4) (i : ℕ) (hi : i < X.length) :
    (X.map f).getD i 0 = f (X.getD i 0) := by
  rw [List.getD_eq_getElem _ _ (by simpa using hi), List.getElem_map,
    List.getD_eq_getElem _ _ hi]

/-- C9: switch-term no-op — for every two-port network S, if the forward and
reverse switch terms are identically 0 at all frequencies, then the
switch-term correction returns S unchanged at every frequency. -/
theorem correct_sw_noop (Ss : List M2) :
    correct_sw Ss (List.replicate Ss.length 0) (List.replicate Ss.length 0)
      = Ss := by
  rw [correct_sw, zipWith3_replicate_right]
  simp [correct_sw_point_zero]

/-- C6: coefficient formulas — error_coef satisfies, at every frequency
index, EDF = X[2,3], ESF = -X[3,2], ERF = X[2,2]-X[2,3]*X[3,2],
ERR = X[1,1]-X[3,1]*X[1,3], EDR = -X[1,3], ESR = X[3,1], as pure functions
of the error-box array X. -/
theorem error_coef_formulas (X : List M4) (i : ℕ) (hi : i < X.length) :
    (error_coef X).EDF.getD i 0 = (X.getD i 0) 2 3
    ∧ (error_coef X).ESF.getD i 0 = -((X.getD i 0) 3 2)
    ∧ (error_coef X).ERF.getD i 0
        = (X.getD i 0) 2 2 - (X.getD i 0) 2 3 * (X.getD i 0) 3 2
    ∧ (error_coef X).ERR.getD i 0
        = (X.getD i 0) 1 1 - (X.getD i 0) 3 1 * (X.getD i 0) 1 3
    ∧ (error_coef X).EDR.getD i 0 = -((X.getD i 0) 1 3)
    ∧ (error_coef X).ESR.getD i 0 = (X.getD i 0) 3 1 := by
  refine ⟨?_, ?_, ?_, ?_, ?_, ?_⟩ <;>
  · simp only [error_coef]
    rw [getD_map_zero _ X i hi]

/-- Witness for error_coef_formulas at a concrete one-point X array. -/
theorem error_coef_formulas_witness :
    (error_coef [!![0, 1, 2, 3; 4, 5, 6, 7; 8, 9, 10, 11; 12, 13, 14, 15]]).EDF.getD 0 0
        = (([!![0, 1, 2, 3; 4, 5, 6, 7; 8, 9, 10, 11; 12, 13, 14, 15]].getD 0 0 : M4)) 2 3
    ∧ (error_coef [!![0, 1, 2, 3; 4, 5, 6, 7; 8, 9, 10, 11; 12, 13, 14, 15]]).ESF.getD 0 0
        = -(([!![0, 1, 2, 3; 4, 5, 6, 7; 8, 9, 10, 11; 12, 13, 14, 15]].getD 0 0 : M4) 3 2)
    ∧ (error_coef [!![0, 1, 2, 3; 4, 5, 6, 7; 8, 9, 10, 11; 12, 13, 14, 15]]).ERF.getD 0 0
        = ([!![0, 1, 2, 3; 4, 5, 6, 7; 8, 9, 10, 11; 12, 13, 14, 15]].getD 0 0 : M4) 2 2
          - ([!![0, 1, 2, 3; 4, 5, 6, 7; 8, 9, 10, 11; 12, 13, 14, 15]].getD 0 0 : M4) 2 3
            * ([!![0, 1, 2, 3; 4, 5, 6, 7; 8, 9, 10, 11; 12, 13, 14, 15]].getD 0 0 : M4) 3 2
    ∧ (error_coef [!![0, 1, 2, 3; 4, 5, 6, 7; 8, 9, 10, 11; 12, 13, 14, 15]]).ERR.getD 0 0
        = ([!![0, 1, 2, 3; 4, 5, 6, 7; 8, 9, 10, 11; 12, 13, 14, 15]].getD 0 0 : M4) 1 1
          - ([!![0, 1, 2, 3; 4, 5, 6, 7; 8, 9, 10, 11; 12, 13, 14, 15]].getD 0 0 : M4) 3 1
            * ([!![0, 1, 2, 3; 4, 5, 6, 7; 8, 9, 10, 11; 12, 13, 14, 15]].getD 0 0 : M4) 1 3
    ∧ (error_coef [!![0, 1, 2, 3; 4, 5, 6, 7; 8, 9, 10, 11; 12, 13, 14, 15]]).EDR.getD 0 0
        = -(([!![0, 1, 2, 3; 4, 5, 6, 7; 8, 9, 10, 11; 12, 13, 14, 15]].getD 0 0 : M4) 1 3)
    ∧ (error_coef [!![0, 1, 2, 3; 4, 5, 6, 7; 8, 9, 10, 11; 12, 13, 14, 15]]).ESR.getD 0 0
        = ([!![0, 1, 2, 3; 4, 5, 6, 7; 8, 9, 10, 11; 12, 13, 14, 15]].getD 0 0 : M4) 3 1 :=
  error_coef_formulas [!![0, 1, 2, 3; 4, 5, 6, 7; 8, 9, 10, 11; 12, 13, 14, 15]] 0
    (by norm_num)

/-- C3 counterexample: constructing an mTRL session whose line_lengths list
has a different length from its lines list does not raise — construction
returns normally, so no ContractViolation exists, refuting the claim as
stated. -/
theorem mTRL_init_mismatch_not_rejected :
    ([[], []] : List (List M2)).length ≠ ([(1 : ℝ)] : List ℝ).length
    ∧ returnsOk (mTRL_init [[], []] [(1 : ℝ)] [] [-1] [0] 1 none) = true :=
  ⟨by norm_num, rfl⟩

/-- C3 amended: constructing a calibration session performs no length
validation at all — for every input, including every one with
len(line_lengths) different from len(lines), mTRL.__init__ returns the
session normally (no exception, no Solver invocation). -/
theorem mTRL_init_no_validation (lines : List (List M2))
    (line_lengths : List ℝ) (reflect : List (List M2)) (reflect_est : List ℂ)
    (reflect_offset : List ℝ) (ereff_est : ℂ)
    (switch_term : Option (List ℂ × List ℂ))
    (h : lines.length ≠ line_lengths.length) :
    returnsOk (mTRL_init lines line_lengths reflect reflect_est
      reflect_offset ereff_est switch_term) = true := by
  rcases switch_term with _ | ⟨gf, gr⟩ <;> rfl

/-- Witness for mTRL_init_no_validation at a concrete mismatched input. -/
theorem mTRL_init_no_validation_witness :
    returnsOk (mTRL_init [[]] [] [] [-1] [0] 1 none) = true :=
  mTRL_init_no_validation [[]] [] [] [-1] [0] 1 none (by norm_num)

/-- C10: frame property of the state transforms — shift_plane and
renorm_impedance modify only the X and K arrays, keeping gamma and the
coefficient mapping exactly; and the kept coefficients can disagree with the
coefficient formulas applied to the transformed X, since they are not
recomputed. -/
theorem transform_frame :
    (∀ (st : MTRLState) (d : ℝ),
        (shift_plane st d).gamma = st.gamma
        ∧ (shift_plane st d).coefs = st.coefs)
    ∧ (∀ (st : MTRLState) (Z_new Z0 : List ℂ),
        (renorm_impedance st Z_new Z0).gamma = st.gamma
        ∧ (renorm_impedance st Z_new Z0).coefs = st.coefs)
    ∧ (∃ (st : MTRLState) (Z_new Z0 : List ℂ),
        (renorm_impedance st Z_new Z0).coefs
          ≠ error_coef (renorm_impedance st Z_new Z0).X) := by
  refine ⟨fun st d => ⟨rfl, rfl⟩, fun st Zn Z0 => ⟨rfl, rfl⟩,
    ⟨⟨[1], [1], [], error_coef [1]⟩, [3], [1], fun h => ?_⟩⟩
  have h2 := congrArg (fun c => c.EDF.getD 0 0) h
  simp only [renorm_impedance, renorm_Gamma, List.zipWith_cons_cons,
    List.zipWith_nil_right, zipWith3, List.map_cons, List.map_nil,
    renorm_point, normKX, renormKX, error_coef, List.getD_cons_zero,
    Matrix.smul_apply, Matrix.one_apply, one_smul, one_mul, smul_eq_mul] at h2
  simp [kron4] at h2
  norm_num at h2

theorem vec4_prod_inv (z : ℂ) (hz : z ≠ 0) :
    (fun i => (![z ^ 2, 1, 1, 1 / z ^ 2] : Fin 4 → ℂ) i
        * (![z⁻¹ ^ 2, 1, 1, 1 / z⁻¹ ^ 2] : Fin 4 → ℂ) i)
      = fun _ => (1 : ℂ) := by
  funext i
  fin_cases i <;>
    simp [Matrix.vecHead, Matrix.vecTail] <;>
    field_simp

theorem diag_shift_cancel (z : ℂ) (hz : z ≠ 0) :
    Matrix.diagonal ![z ^ 2, 1, 1, 1 / z ^ 2]
        * Matrix.diagonal ![z⁻¹ ^ 2, 1, 1, 1 / z⁻¹ ^ 2] = (1 : M4) := by
  rw [Matrix.diagonal_mul_diagonal, vec4_prod_inv z hz, Matrix.diagonal_one]

theorem normKX_smul_id (x : M4) (k : ℂ) (hx : x 3 3 = 1) (hk : k ≠ 0) :
    normKX (k • x) = (x, k) := by
  have h33 : (k • x) 3 3 = k := by
    simp [Matrix.smul_apply, hx]
  rw [normKX, h33, inv_smul_smul₀ hk]

theorem shiftKX_33 (x : M4) (k g : ℂ) (d : ℝ) (hx : x 3 3 = 1) :
    shiftKX x k g d 3 3 = k * (1 / Complex.exp (-(g * (d : ℂ))) ^ 2) := by
  simp [shiftKX, Matrix.smul_apply, Matrix.mul_diagonal, hx,
    Matrix.vecHead, Matrix.vecTail]

theorem shiftKX_33_ne (x : M4) (k g : ℂ) (d : ℝ) (hx : x 3 3 = 1)
    (hk : k ≠ 0) : shiftKX x k g d 3 3 ≠ 0 := by
  rw [shiftKX_33 x k g d hx]
  exact mul_ne_zero hk
    (by simpa using inv_ne_zero (pow_ne_zero 2 (Complex.exp_ne_zero _)))

theorem shift_plane_point_roundtrip (x : M4) (k g : ℂ) (d : ℝ)
    (hx : x 3 3 = 1) (hk : k ≠ 0) :
    shift_plane_point (shift_plane_point x k g d).1
      (shift_plane_point x k g d).2 g (-d) = (x, k) := by
  have hz : Complex.exp (-(g * (d : ℂ))) ≠ 0 := Complex.exp_ne_zero _
  have hzz : Complex.exp (-(g * ((-d : ℝ) : ℂ)))
      = (Complex.exp (-(g * (d : ℂ))))⁻¹ := by
    rw [← Complex.exp_neg]
    push_cast
    ring_nf
  have hc0 : shiftKX x k g d 3 3 ≠ 0 := shiftKX_33_ne x k g d hx hk
  have key : shiftKX (shift_plane_point x k g d).1
      (shift_plane_point x k g d).2 g (-d) = k • x := by
    have hc0' := hc0
    simp only [shiftKX] at hc0'
    simp only [shift_plane_point, normKX, shiftKX, hzz]
    rw [Matrix.smul_mul, smul_smul, mul_inv_cancel₀ hc0', one_smul,
      Matrix.smul_mul, Matrix.mul_assoc, diag_shift_cancel _ hz,
      Matrix.mul_one]
  rw [shift_plane_point, key, normKX_smul_id x k hx hk]

theorem shift_zip_roundtrip (d : ℝ) :
    ∀ (X : List M4) (K G : List ℂ), X.length = K.length →
      K.length = G.length →
      (∀ x ∈ X, x 3 3 = 1) → (∀ k ∈ K, k ≠ 0) →
      zipWith3 (fun x k g => shift_plane_point x k g (-d))
          ((zipWith3 (fun x k g => shift_plane_point x k g d) X K G).map
            Prod.fst)
          ((zipWith3 (fun x k g => shift_plane_point x k g d) X K G).map
            Prod.snd)
          G
        = X.zip K
  | [], _, _, _, _, _, _ => by simp [zipWith3]
  | x :: X, [], G, h1, _, _, _ => by simp at h1
  | x :: X, k :: K, [], _, h2, _, _ => by simp at h2
  | x :: X, k :: K, g :: G, h1, h2, hX, hK => by
      simp only [zipWith3, List.map_cons, List.zip_cons_cons]
      refine congrArg₂ _ ?_ ?_
      · exact shift_plane_point_roundtrip x k g d (hX x (by simp))
          (hK k (by simp))
      · exact shift_zip_roundtrip d X K G (by simpa using h1)
          (by simpa using h2) (fun a ha => hX a (List.mem_cons_of_mem _ ha))
          (fun a ha => hK a (List.mem_cons_of_mem _ ha))

/-- C2 amended: plane-shift round trip — for every calibration state whose
error boxes satisfy the data-model normalization invariant X[3,3] = 1, whose
scale factors K are all nonzero, and whose gamma entries have positive real
part, shifting the plane by d and then by -d restores the state exactly
(hence within any numerical tolerance). -/
theorem shift_plane_roundtrip (st : MTRLState) (d : ℝ)
    (h1 : st.X.length = st.K.length) (h2 : st.K.length = st.gamma.length)
    (hX : ∀ x ∈ st.X, x 3 3 = 1) (hK : ∀ k ∈ st.K, k ≠ 0)
    (hG : ∀ g ∈ st.gamma, 0 < g.re) :
    shift_plane (shift_plane st d) (-d) = st := by
  obtain ⟨X, K, G, cf⟩ := st
  simp only [shift_plane]
  rw [shift_zip_roundtrip d X K G h1 h2 hX hK,
    List.map_fst_zip X K (le_of_eq h1), List.map_snd_zip X K (ge_of_eq h1)]

/-- Witness for shift_plane_roundtrip at the concrete state with
X = [identity], K = [1], gamma = [1] and distance d = 1. -/
theorem shift_plane_roundtrip_witness :
    shift_plane (shift_plane ⟨[1], [1], [1], error_coef [1]⟩ 1) (-1)
      = ⟨[1], [1], [1], error_coef [1]⟩ :=
  shift_plane_roundtrip ⟨[1], [1], [1], error_coef [1]⟩ 1 rfl rfl
    (by intro x hx; rw [List.mem_singleton] at hx; subst hx;
        exact Matrix.one_apply_eq _)
    (by intro k hk; rw [List.mem_singleton] at hk; subst hk;
        exact one_ne_zero)
    (by intro g hg; rw [List.mem_singleton] at hg; subst hg;
        norm_num)

/-- C2 counterexample: the round-trip claim fails, as stated, for the state
X = [identity], K = [0], gamma = [1] (which satisfies X[3,3] = 1 and has
gamma of positive real part): with a zero scale factor the renormalizing
division degenerates and the doubly shifted state differs from the original
far beyond any 1e-9 tolerance. -/
theorem shift_plane_roundtrip_cex :
    ((shift_plane (shift_plane ⟨[1], [0], [1], error_coef [1]⟩ 1)
        (-1)).X.getD 0 0) 0 0 = 0
    ∧ (((⟨[1], [0], [1], error_coef [1]⟩ : MTRLState).X.getD 0 0) : M4)
        0 0 = 1
    ∧ shift_plane (shift_plane ⟨[1], [0], [1], error_coef [1]⟩ 1) (-1)
        ≠ (⟨[1], [0], [1], error_coef [1]⟩ : MTRLState) := by
  have h0 : ((shift_plane (shift_plane ⟨[1], [0], [1], error_coef [1]⟩ 1)
      (-1)).X.getD 0 0) 0 0 = 0 := by
    simp only [shift_plane, zipWith3, shift_plane_point, shiftKX, normKX,
      zero_smul, smul_zero, Matrix.zero_apply, List.map_cons, List.map_nil,
      List.getD_cons_zero]
  have h1 : (((⟨[1], [0], [1], error_coef [1]⟩ : MTRLState).X.getD 0 0) : M4)
      0 0 = 1 := by
    simp only [List.getD_cons_zero]
    exact Matrix.one_apply_eq _
  refine ⟨h0, h1, fun h => ?_⟩
  have h2 := congrArg (fun st => (st.X.getD 0 0) 0 0) h
  simp only [] at h2
  rw [h0, h1] at h2
  exact zero_ne_one h2

theorem kron4_zero : kron4 0 = (1 : M4) := by
  ext i j
  fin_cases i <;> fin_cases j <;>
    simp [kron4, Matrix.one_apply, Matrix.vecHead, Matrix.vecTail]

theorem renorm_point_zero (x : M4) (k : ℂ) (hx : x 3 3 = 1) (hk : k ≠ 0) :
    renorm_point x k 0 = (x, k) := by
  have hKX : renormKX x k 0 = k • x := by
    rw [renormKX, kron4_zero, Matrix.mul_one]
    norm_num
  rw [renorm_point, hKX, normKX_smul_id x k hx hk]

theorem renorm_Gamma_self : ∀ Z : List ℂ, (∀ z ∈ Z, z + z ≠ 0) →
    renorm_Gamma Z Z = List.replicate Z.length 0
  | [], _ => rfl
  | z :: Z, hZ => by
      simp only [renorm_Gamma, List.zipWith_cons_cons, List.length_cons,
        List.replicate_succ, sub_self, zero_div]
      exact congrArg _
        (renorm_Gamma_self Z (fun a ha => hZ a (List.mem_cons_of_mem _ ha)))

theorem renorm_zip_zero : ∀ (X : List M4) (K : List ℂ) (m : ℕ),
    X.length = K.length → K.length = m →
    (∀ x ∈ X, x 3 3 = 1) → (∀ k ∈ K, k ≠ 0) →
    zipWith3 renorm_point X K (List.replicate m 0) = X.zip K
  | [], _, _, _, _, _, _ => by simp [zipWith3]
  | x :: X, [], _, h1, _, _, _ => by simp at h1
  | x :: X, k :: K, 0, _, h2, _, _ => by simp at h2
  | x :: X, k :: K, m + 1, h1, h2, hX, hK => by
      simp only [List.replicate_succ, zipWith3, List.zip_cons_cons]
      refine congrArg₂ _ ?_ ?_
      · exact renorm_point_zero x k (hX x (by simp)) (hK k (by simp))
      · exact renorm_zip_zero X K m (by simpa using h1) (by simpa using h2)
          (fun a ha => hX a (List.mem_cons_of_mem _ ha))
          (fun a ha => hK a (List.mem_cons_of_mem _ ha))

/-- C4 amended: impedance no-op — when Z_new equals Z0 elementwise with a
nonzero reference impedance at each frequency (so the divisor Z_new + Z0 of
the reflection-coefficient formula is nonzero), renorm_impedance computes
Gamma = 0 at every frequency, and on every calibration state whose error
boxes satisfy the normalization invariant X[3,3] = 1 and whose scale factors
K are all nonzero it leaves (X, K) unchanged (the transform is the
identity). -/
theorem renorm_impedance_noop (st : MTRLState) (Z : List ℂ)
    (h1 : st.X.length = st.K.length) (h2 : st.K.length = Z.length)
    (hZ : ∀ z ∈ Z, z ≠ 0)
    (hX : ∀ x ∈ st.X, x 3 3 = 1) (hK : ∀ k ∈ st.K, k ≠ 0) :
    renorm_Gamma Z Z = List.replicate Z.length 0
    ∧ renorm_impedance st Z Z = st := by
  have hZ2 : ∀ z ∈ Z, z + z ≠ 0 := fun z hz h =>
    hZ z hz (add_self_eq_zero.mp h)
  refine ⟨renorm_Gamma_self Z hZ2, ?_⟩
  obtain ⟨X, K, G, cf⟩ := st
  simp only [renorm_impedance, renorm_Gamma_self Z hZ2]
  rw [renorm_zip_zero X K Z.length h1 h2 hX hK,
    List.map_fst_zip X K (le_of_eq h1), List.map_snd_zip X K (ge_of_eq h1)]

/-- Witness for renorm_impedance_noop at the concrete state with
X = [identity], K = [1] and Z_new = Z0 = [50]. -/
theorem renorm_impedance_noop_witness :
    renorm_Gamma [50] [50] = List.replicate [(50 : ℂ)].length 0
    ∧ renorm_impedance ⟨[1], [1], [1], error_coef [1]⟩ [50] [50]
        = ⟨[1], [1], [1], error_coef [1]⟩ :=
  renorm_impedance_noop ⟨[1], [1], [1], error_coef [1]⟩ [50] rfl rfl
    (by intro z hz; rw [List.mem_singleton] at hz; subst hz;
        norm_num)
    (by intro x hx; rw [List.mem_singleton] at hx; subst hx;
        exact Matrix.one_apply_eq _)
    (by intro k hk; rw [List.mem_singleton] at hk; subst hk;
        exact one_ne_zero)

/-- C4 counterexample: the impedance no-op claim fails, as stated, for the
state X = [identity], K = [0] (which satisfies X[3,3] = 1): with Z_new = Z0
= [50] the computed Gamma is 0 but the renormalizing division by
KX_new[3,3] = 0 degenerates, so (X, K) is not left unchanged. -/
theorem renorm_impedance_noop_cex :
    ((renorm_impedance ⟨[1], [0], [1], error_coef [1]⟩ [50]
        [50]).X.getD 0 0) 0 0 = 0
    ∧ (((⟨[1], [0], [1], error_coef [1]⟩ : MTRLState).X.getD 0 0) : M4)
        0 0 = 1
    ∧ renorm_impedance ⟨[1], [0], [1], error_coef [1]⟩ [50] [50]
        ≠ (⟨[1], [0], [1], error_coef [1]⟩ : MTRLState) := by
  have h0 : ((renorm_impedance ⟨[1], [0], [1], error_coef [1]⟩ [50]
      [50]).X.getD 0 0) 0 0 = 0 := by
    simp only [renorm_impedance, renorm_Gamma, List.zipWith_cons_cons,
      List.zipWith_nil_right, zipWith3, renorm_point, renormKX, normKX,
      zero_smul, smul_zero, Matrix.zero_apply, List.map_cons, List.map_nil,
      List.getD_cons_zero]
  have h1 : (((⟨[1], [0], [1], error_coef [1]⟩ : MTRLState).X.getD 0 0) : M4)
      0 0 = 1 := by
    simp only [List.getD_cons_zero]
    exact Matrix.one_apply_eq _
  refine ⟨h0, h1, fun h => ?_⟩
  have h2 := congrArg (fun st => (st.X.getD 0 0) 0 0) h
  simp only [] at h2
  rw [h0, h1] at h2
  exact zero_ne_one h2

/-- C5 amended: normalization invariant — after either transform of the
state (shift_plane with any d, renorm_impedance with any Z_new/Z0, i.e. any
reflection coefficient g), provided the trailing entry KX_new[3,3] of the
scaled matrix is nonzero, the per-frequency result X has trailing (row 3,
col 3) element equal to 1, and K absorbs the removed scale factor:
K_new = KX_new[3,3]. -/
theorem normalization_invariant :
    (∀ (x : M4) (k g : ℂ) (d : ℝ), shiftKX x k g d 3 3 ≠ 0 →
        (shift_plane_point x k g d).1 3 3 = 1
        ∧ (shift_plane_point x k g d).2 = shiftKX x k g d 3 3)
    ∧ (∀ (x : M4) (k g : ℂ), renormKX x k g 3 3 ≠ 0 →
        (renorm_point x k g).1 3 3 = 1
        ∧ (renorm_point x k g).2 = renormKX x k g 3 3) := by
  constructor
  · intro x k g d h
    refine ⟨?_, rfl⟩
    simp only [shift_plane_point, normKX, Matrix.smul_apply, smul_eq_mul]
    exact inv_mul_cancel₀ h
  · intro x k g h
    refine ⟨?_, rfl⟩
    simp only [renorm_point, normKX, Matrix.smul_apply, smul_eq_mul]
    exact inv_mul_cancel₀ h

theorem shiftKX_id_33 : shiftKX 1 1 0 0 3 3 = 1 := by
  simp [shiftKX, Matrix.smul_apply, Matrix.mul_diagonal, Matrix.one_apply,
    Matrix.vecHead, Matrix.vecTail]

theorem renormKX_id_33 : renormKX 1 1 0 3 3 = 1 := by
  rw [renormKX, kron4_zero, Matrix.mul_one]
  norm_num

/-- Witness for normalization_invariant: both transforms applied at the
identity error box with K = 1, g = 0, d = 0, where the scaled trailing
entry is 1. -/
theorem normalization_invariant_witness :
    ((shift_plane_point 1 1 0 0).1 3 3 = 1
      ∧ (shift_plane_point 1 1 0 0).2 = shiftKX 1 1 0 0 3 3)
    ∧ ((renorm_point 1 1 0).1 3 3 = 1
      ∧ (renorm_point 1 1 0).2 = renormKX 1 1 0 3 3) :=
  ⟨normalization_invariant.1 1 1 0 0 (by rw [shiftKX_id_33]; exact one_ne_zero),
   normalization_invariant.2 1 1 0 (by rw [renormKX_id_33]; exact one_ne_zero)⟩

/-- C5 counterexample: the invariant fails, as stated, for
renorm_impedance with Z_new = [3], Z0 = [1] (reflection coefficient
g = 1/2) on the state X = [identity with the (3,1) entry set to 2], K = 1:
that X satisfies the normalization invariant X[3,3] = 1 and K is nonzero,
yet KX_new[3,3] = 0, so the transformed X has trailing element 0, not 1. -/
theorem normalization_invariant_cex :
    ((renorm_impedance
        ⟨[!![1, 0, 0, 0; 0, 1, 0, 0; 0, 0, 1, 0; 0, 2, 0, 1]], [1], [],
          error_coef [!![1, 0, 0, 0; 0, 1, 0, 0; 0, 0, 1, 0; 0, 2, 0, 1]]⟩
        [3] [1]).X.getD 0 0) 3 3 ≠ 1 := by
  have hG : ((3 : ℂ) - 1) / ((3 : ℂ) + 1) = 1 / 2 := by norm_num
  have hKX33 : renormKX !![1, 0, 0, 0; 0, 1, 0, 0; 0, 0, 1, 0; 0, 2, 0, 1]
      1 (1 / 2) 3 3 = 0 := by
    rw [renormKX]
    simp only [Matrix.smul_apply, one_smul, smul_eq_mul]
    rw [Matrix.mul_apply, Fin.sum_univ_four]
    norm_num [kron4, Matrix.vecHead, Matrix.vecTail]
  simp only [renorm_impedance, renorm_Gamma, List.zipWith_cons_cons,
    List.zipWith_nil_right, zipWith3, renorm_point, normKX, hG,
    List.map_cons, List.map_nil, List.getD_cons_zero]
  rw [Matrix.smul_apply, hKX33]
  norm_num

theorem apply_cal_point_id (s : M2) (h : s 1 0 ≠ 0) :
    apply_cal_point 1 1 s = s := by
  ext i j
  fin_cases i <;> fin_cases j <;>
    simp [apply_cal_point, pinv, inv_one, Matrix.one_mulVec,
      Matrix.vecHead, Matrix.vecTail] <;>
    field_simp <;> ring

theorem apply_cal_point_mirror (c : ℂ) :
    apply_cal_point 1 1 !![c, 0; 0, c] = !![c, 0; 0, c] := by
  ext i j
  fin_cases i <;> fin_cases j <;>
    simp [apply_cal_point, pinv, inv_one, Matrix.one_mulVec,
      Matrix.vecHead, Matrix.vecTail]

/-- C1 amended: identity-calibration law — with X the identity matrix and
K = 1 at every frequency and no switch terms configured, apply_cal returns
the measured network unchanged, for every 1-port network and for every
2-port network whose S21 entry is nonzero at each frequency (at a frequency
with S21 = 0 the computation divides by zero, so the law cannot cover it). -/
theorem apply_cal_identity :
    (∀ (s : List (ℕ → ℕ → ℂ)) (left : Bool),
        apply_cal_general (List.replicate s.length 1)
            (List.replicate s.length 1) none 1 s left
          = .ok (.inl (s.map fun f => f 0 0)))
    ∧ ∀ (s : List (ℕ → ℕ → ℂ)) (left : Bool),
        (∀ f ∈ s, f 1 0 ≠ 0) →
        apply_cal_general (List.replicate s.length 1)
            (List.replicate s.length 1) none 2 s left
          = .ok (.inr (s.map fun f => !![f 0 0, f 0 1; f 1 0, f 1 1])) := by
  constructor
  · intro s left
    simp only [apply_cal_general, if_pos (by norm_num : (1 : ℕ) < 2)]
    rw [show s.length
        = (s.map (fun f => (!![f 0 0, 0; 0, f 0 0] : M2))).length from
        (List.length_map _ _).symm,
      zipWith3_replicate_replicate]
    simp only [List.map_map]
    refine congrArg _ (congrArg _ (List.map_congr_left fun f hf => ?_))
    simp only [Function.comp_apply]
    rw [apply_cal_point_mirror (f 0 0)]
    cases left <;> simp
  · intro s left hs
    simp only [apply_cal_general, if_neg (by norm_num : ¬ (2 : ℕ) < 2)]
    rw [show s.length
        = (s.map (fun f => (!![f 0 0, f 0 1; f 1 0, f 1 1] : M2))).length from
        (List.length_map _ _).symm,
      zipWith3_replicate_replicate]
    simp only [List.map_map]
    refine congrArg _ (congrArg _ (List.map_congr_left fun f hf => ?_))
    simp only [Function.comp_apply]
    refine apply_cal_point_id _ ?_
    simpa using hs f hf

/-- Witness for apply_cal_identity: a one-point 2-port network with all
entries 1 (hence S21 nonzero) is returned unchanged by the identity
calibration. -/
theorem apply_cal_identity_witness :
    apply_cal_general (List.replicate [fun (_ _ : ℕ) => (1 : ℂ)].length 1)
        (List.replicate [fun (_ _ : ℕ) => (1 : ℂ)].length 1) none 2
        [fun (_ _ : ℕ) => (1 : ℂ)] true
      = .ok (.inr ([fun (_ _ : ℕ) => (1 : ℂ)].map
          fun f => !![f 0 0, f 0 1; f 1 0, f 1 1])) :=
  apply_cal_identity.2 [fun (_ _ : ℕ) => 1] true
    (by intro f hf; rw [List.mem_singleton] at hf; subst hf;
        exact one_ne_zero)

/-- C1 counterexample: the identity-calibration law fails, as stated, at the
valid one-point 2-port network with S = [[0, 1], [0, 0]] (zero
transmission S21): with X = identity and K = 1 and no switch terms, the
calibrated S12 divides by S21 = 0 and the output differs from the input. -/
theorem apply_cal_identity_cex :
    apply_cal_point 1 1 !![0, 1; 0, 0] 0 1 = 0
    ∧ (!![0, 1; 0, 0] : M2) 0 1 = 1
    ∧ apply_cal_general [1] [1] none 2
        [fun i j => if i = 0 ∧ j = 1 then 1 else 0] true
      ≠ Except.ok (Sum.inr [!![0, 1; 0, 0]]) := by
  have h0 : apply_cal_point 1 1 !![0, 1; 0, 0] 0 1 = 0 := by
    simp [apply_cal_point, pinv, inv_one, Matrix.one_mulVec,
      Matrix.vecHead, Matrix.vecTail]
  refine ⟨h0, by simp, fun h => ?_⟩
  have h1 : (Except.ok (Sum.inr [apply_cal_point 1 1 !![0, 1; 0, 0]]) :
      Except String (List ℂ ⊕ List M2))
      = Except.ok (Sum.inr [!![0, 1; 0, 0]]) := by
    rw [← h]
    simp only [apply_cal_general, List.map_cons, List.map_nil, zipWith3]
    norm_num
  simp only [Except.ok.injEq, Sum.inr.injEq, List.cons.injEq] at h1
  have h2 := congrFun (congrFun h1.1 0) 1
  rw [h0] at h2
  simp at h2

/-- C8 amended: apply_cal performs no port-count rejection — for every port
count it returns normally (never raises), and every input with two or more
ports (in particular any port count other than 1 or 2) is silently processed
through the 2-port path using only the scattering entries (0,0), (0,1),
(1,0), (1,1); no PortCountError exists. -/
theorem apply_cal_no_port_check (X : List M4) (K : List ℂ)
    (sw : Option (List ℂ × List ℂ)) (nports : ℕ) (s : List (ℕ → ℕ → ℂ))
    (left : Bool) :
    returnsOk (apply_cal_general X K sw nports s left) = true
    ∧ (2 ≤ nports →
        apply_cal_general X K sw nports s left
          = .ok (.inr (zipWith3 apply_cal_point X K
              (match sw with
               | none => s.map fun f => !![f 0 0, f 0 1; f 1 0, f 1 1]
               | some (gf, gr) =>
                   correct_sw
                     (s.map fun f => !![f 0 0, f 0 1; f 1 0, f 1 1])
                     gf gr)))) := by
  constructor
  · by_cases hn : nports < 2 <;> simp [apply_cal_general, hn, returnsOk]
  · intro hn
    simp only [apply_cal_general, if_neg (not_lt.mpr hn)]

/-- Witness for apply_cal_no_port_check at a concrete 3-port input: it is
accepted and processed as a 2-port. -/
theorem apply_cal_no_port_check_witness :
    returnsOk (apply_cal_general [1] [(1 : ℂ)] none 3
        [fun (_ _ : ℕ) => (1 : ℂ)] true) = true
    ∧ apply_cal_general [1] [(1 : ℂ)] none 3 [fun (_ _ : ℕ) => (1 : ℂ)] true
        = .ok (.inr (zipWith3 apply_cal_point [1] [(1 : ℂ)]
            ([fun (_ _ : ℕ) => (1 : ℂ)].map
              fun f => !![f 0 0, f 0 1; f 1 0, f 1 1]))) :=
  ⟨(apply_cal_no_port_check [1] [1] none 3 [fun (_ _ : ℕ) => 1] true).1,
   (apply_cal_no_port_check [1] [1] none 3 [fun (_ _ : ℕ) => 1] true).2
     (by norm_num)⟩

/-- C8 counterexample: a 3-port measured network (port count neither 1 nor
2) does not make apply_cal raise — the call returns normally, refuting the
claimed PortCountError. -/
theorem apply_cal_port_check_cex :
    (3 : ℕ) ≠ 1 ∧ (3 : ℕ) ≠ 2
    ∧ returnsOk (apply_cal_general [1] [(1 : ℂ)] none 3
        [fun (_ _ : ℕ) => (1 : ℂ)] true) = true :=
  ⟨by norm_num, by norm_num, rfl⟩

theorem multical_guesses_length (solveAt : ℕ → ℂ → M4 × ℂ × ℂ) :
    ∀ (f : List ℝ) (inx : ℕ) (g0 : ℂ),
      (multical_guesses solveAt f inx g0).length = f.length
  | [], _, _ => rfl
  | ff :: rest, inx, g0 => by
      simp only [multical_guesses, List.length_cons]
      rw [multical_guesses_length solveAt rest (inx + 1) _]

theorem multical_fold_length (solveAt : ℕ → ℂ → M4 × ℂ × ℂ) :
    ∀ (f : List ℝ) (inx : ℕ) (g0 : ℂ),
      (multical_fold solveAt f inx g0).length = f.length
  | [], _, _ => rfl
  | ff :: rest, inx, g0 => by
      simp only [multical_fold, List.length_cons]
      rw [multical_fold_length solveAt rest (inx + 1) _]

theorem multical_guesses_succ (solveAt : ℕ → ℂ → M4 × ℂ × ℂ) :
    ∀ (f : List ℝ) (inx : ℕ) (g0 : ℂ) (i : ℕ), i + 1 < f.length →
      (multical_guesses solveAt f inx g0).getD (i + 1) 0
        = extrap_gamma
            ((solveAt (inx + i)
              ((multical_guesses solveAt f inx g0).getD i 0)).2.2)
            (f.getD (i + 1) 0) (f.getD i 0)
  | [], _, _, i, h => by simp at h
  | [ff], _, _, i, h => by simp at h
  | ff :: fnext :: rest, inx, g0, 0, h => by
      simp [multical_guesses]
  | ff :: fnext :: rest, inx, g0, i + 1, h => by
      have ih := multical_guesses_succ solveAt (fnext :: rest) (inx + 1)
        (extrap_gamma (solveAt inx g0).2.2 fnext ff) i (by simpa using h)
      simp only [multical_guesses, List.getD_cons_succ]
      rw [show inx + (i + 1) = inx + 1 + i from by omega]
      exact ih

theorem multical_fold_getD (solveAt : ℕ → ℂ → M4 × ℂ × ℂ) :
    ∀ (f : List ℝ) (inx : ℕ) (g0 : ℂ) (i : ℕ), i < f.length →
      (multical_fold solveAt f inx g0).getD i 0
        = solveAt (inx + i) ((multical_guesses solveAt f inx g0).getD i 0)
  | [], _, _, i, h => by simp at h
  | ff :: rest, inx, g0, 0, h => by
      simp [multical_fold, multical_guesses]
  | ff :: rest, inx, g0, i + 1, h => by
      have ih := fun g1 => multical_fold_getD solveAt rest (inx + 1) g1 i
        (by simpa using h)
      simp only [multical_fold, multical_guesses, List.getD_cons_succ]
      rw [show inx + (i + 1) = inx + 1 + i from by omega]
      exact ih _

/-- C7: classical warm-start policy — in the run_multical sweep (processed
in list order, i.e. ascending frequency), for every index i with a
successor, the guess passed to the solver at index i+1 equals
Re(gamma_i) + j*Im(gamma_i)*f[i+1]/f[i], where gamma_i is the solver output
at index i; and the loop makes exactly one solver call and consumes exactly
one guess per frequency point (none after the last). -/
theorem multical_warm_start (solveAt : ℕ → ℂ → M4 × ℂ × ℂ) (f : List ℝ)
    (g0 : ℂ) (i : ℕ) (h : i + 1 < f.length) :
    (multical_guesses solveAt f 0 g0).getD (i + 1) 0
      = extrap_gamma ((multical_fold solveAt f 0 g0).getD i 0).2.2
          (f.getD (i + 1) 0) (f.getD i 0)
    ∧ (multical_guesses solveAt f 0 g0).length = f.length
    ∧ (multical_fold solveAt f 0 g0).length = f.length := by
  refine ⟨?_, multical_guesses_length solveAt f 0 g0,
    multical_fold_length solveAt f 0 g0⟩
  rw [multical_fold_getD solveAt f 0 g0 i (by omega)]
  exact multical_guesses_succ solveAt f 0 g0 i h

/-- Witness for multical_warm_start with a concrete constant solver and the
two-point sweep f = [1, 2]. -/
theorem multical_warm_start_witness :
    (multical_guesses (fun _ _ => ((1 : M4), (0 : ℂ), Complex.I)) [1, 2] 0
        0).getD (0 + 1) 0
      = extrap_gamma
          ((multical_fold (fun _ _ => ((1 : M4), (0 : ℂ), Complex.I)) [1, 2]
            0 0).getD 0 0).2.2
          (([(1 : ℝ), 2]).getD (0 + 1) 0) (([(1 : ℝ), 2]).getD 0 0)
    ∧ (multical_guesses (fun _ _ => ((1 : M4), (0 : ℂ), Complex.I)) [1, 2] 0
        0).length = ([(1 : ℝ), 2]).length
    ∧ (multical_fold (fun _ _ => ((1 : M4), (0 : ℂ), Complex.I)) [1, 2] 0
        0).length = ([(1 : ℝ), 2]).length :=
  multical_warm_start (fun _ _ => ((1 : M4), (0 : ℂ), Complex.I)) [1, 2] 0 0
    (by norm_num)
